import Mathlib

/-!
# zig-date.h : the Mach-O 64-bit header record

A verification development for the generated C header `zig-date.h`.  The header
consists of one struct definition (`struct mach_header_64`, eight integer
fields), an empty `extern "C"` block and one external object declaration
(`_mh_execute_header`).

The C implementation's data model (what `sizeof` and `_Alignof` give for
`uint32_t` and `int`, and the byte order) is not part of the header: it is a
parameter, `Platform`.  Bytes are 8 bits wide and are natural numbers below 256;
integers are `Int` with explicit reduction modulo `2 ^ width`.
-/

namespace ZigDate

/-! ## The declarations of the header -/

/-- The two C types the header's fields are declared with. -/
inductive CType where
  | uint32_t
  | int
  deriving DecidableEq, Repr

/-- Signedness of a C type: `uint32_t` is unsigned, `int` is signed. -/
def CType.signed : CType → Bool
  | .uint32_t => false
  | .int => true

/-- One member declaration of a struct: `type name;`. -/
structure Field where
  type : CType
  name : String
  deriving DecidableEq, Repr

/-- A struct definition: its tag and its members in declaration order. -/
structure StructDecl where
  tag : String
  fields : List Field
  deriving DecidableEq, Repr

/-- Values of `struct mach_header_64`: one integer per declared member, in
declaration order (lines 6-15 of `zig-date.h`). -/
structure mach_header_64 where
  magic : Int
  cputype : Int
  cpusubtype : Int
  filetype : Int
  ncmds : Int
  sizeofcmds : Int
  flags : Int
  reserved : Int
  deriving DecidableEq, Repr

/-- The definition `struct mach_header_64 { ... };` as written in the header. -/
def mach_header_64.decl : StructDecl :=
  { tag := "mach_header_64"
    fields :=
      [ ⟨.uint32_t, "magic"⟩,
        ⟨.int, "cputype"⟩,
        ⟨.int, "cpusubtype"⟩,
        ⟨.uint32_t, "filetype"⟩,
        ⟨.uint32_t, "ncmds"⟩,
        ⟨.uint32_t, "sizeofcmds"⟩,
        ⟨.uint32_t, "flags"⟩,
        ⟨.uint32_t, "reserved"⟩ ] }

/-- The members of a `mach_header_64` value, in declaration order. -/
def mach_header_64.values (h : mach_header_64) : List Int :=
  [h.magic, h.cputype, h.cpusubtype, h.filetype, h.ncmds, h.sizeofcmds, h.flags, h.reserved]

/-! ## The platform's data model -/

/-- Order of the bytes of a multi-byte integer in memory. -/
inductive ByteOrder where
  | little
  | big
  deriving DecidableEq, Repr

/-- What the C implementation fixes and the header does not: size and alignment
(in bytes) of the scalar types, and the byte order. -/
structure Platform where
  sizeof : CType → Nat
  alignof : CType → Nat
  byteOrder : ByteOrder

/-- The data model of the 64-bit Mach-O targets (x86_64, arm64): both types are
4 bytes wide and 4-byte aligned, little endian. -/
def darwin64 : Platform :=
  { sizeof := fun _ => 4, alignof := fun _ => 4, byteOrder := .little }

/-- The same sizes with the bytes in big-endian order. -/
def bigEndian32 : Platform :=
  { sizeof := fun _ => 4, alignof := fun _ => 4, byteOrder := .big }

/-! ## The C struct layout rule -/

/-- The least multiple of `a` that is not below `off`. -/
def alignUp (off a : Nat) : Nat := (off + (a - 1)) / a * a

/-- Offsets of the members: each one is placed at the next offset, from the end
of the previous member, that is a multiple of its alignment. -/
def layoutFrom (p : Platform) : Nat → List Field → List Nat
  | _, [] => []
  | off, f :: fs =>
    alignUp off (p.alignof f.type) ::
      layoutFrom p (alignUp off (p.alignof f.type) + p.sizeof f.type) fs

/-- The offset just past the last member. -/
def endFrom (p : Platform) : Nat → List Field → Nat
  | off, [] => off
  | off, f :: fs => endFrom p (alignUp off (p.alignof f.type) + p.sizeof f.type) fs

/-- Alignment of a struct: the largest alignment among its members. -/
def alignofStruct (p : Platform) (s : StructDecl) : Nat :=
  s.fields.foldl (fun a f => max a (p.alignof f.type)) 1

/-- The operator `sizeof` on a struct: the end of the last member rounded up to
the struct's alignment. -/
def sizeofStruct (p : Platform) (s : StructDecl) : Nat :=
  alignUp (endFrom p 0 s.fields) (alignofStruct p s)

/-- Offsets of all members of a struct. -/
def offsets (p : Platform) (s : StructDecl) : List Nat := layoutFrom p 0 s.fields

/-- The operator `offsetof` for the `i`-th member (counting from 0). -/
def offsetof (p : Platform) (s : StructDecl) (i : Nat) : Nat := (offsets p s).getD i 0

/-- Size of the `i`-th member. -/
def fieldSize (p : Platform) (s : StructDecl) (i : Nat) : Nat :=
  ((s.fields.map (fun f => p.sizeof f.type)).getD i 0)

/-- Number of bytes of the struct that belong to no member. -/
def paddingBytes (p : Platform) (s : StructDecl) : Nat :=
  sizeofStruct p s - (s.fields.map (fun f => p.sizeof f.type)).sum

/-- The struct made of the first `n` members only. -/
def StructDecl.truncate (s : StructDecl) (n : Nat) : StructDecl :=
  { s with fields := s.fields.take n }

/-! ## Integer ranges and object representation -/

/-- Width in bits of a scalar type (bytes are 8 bits wide). -/
def bits (p : Platform) (t : CType) : Nat := 8 * p.sizeof t

/-- Least value of a type: `0` when unsigned, `-2^(bits-1)` when signed. -/
def minVal (p : Platform) (t : CType) : Int :=
  if t.signed then -(2 ^ (bits p t - 1)) else 0

/-- Greatest value of a type: `2^bits - 1` when unsigned, `2^(bits-1) - 1` when
signed. -/
def maxVal (p : Platform) (t : CType) : Int :=
  if t.signed then 2 ^ (bits p t - 1) - 1 else 2 ^ bits p t - 1

/-- The value `v` is representable in type `t`. -/
def inRange (p : Platform) (t : CType) (v : Int) : Prop :=
  minVal p t ≤ v ∧ v ≤ maxVal p t

instance (p : Platform) (t : CType) (v : Int) : Decidable (inRange p t v) := by
  unfold inRange; infer_instance

/-- Every element of the list is a byte. -/
def IsBytes (bs : List Nat) : Prop := ∀ b ∈ bs, b < 256

instance (bs : List Nat) : Decidable (IsBytes bs) := by
  unfold IsBytes; infer_instance

/-- The `w` low bytes of `n`, least significant first. -/
def toBytesLE : Nat → Nat → List Nat
  | 0, _ => []
  | w + 1, n => n % 256 :: toBytesLE w (n / 256)

/-- The number whose bytes, least significant first, are `bs`. -/
def ofBytesLE : List Nat → Nat
  | [] => 0
  | b :: bs => b + 256 * ofBytesLE bs

/-- The `w` low bytes of `n` in the given byte order. -/
def toBytes (o : ByteOrder) (w n : Nat) : List Nat :=
  match o with
  | .little => toBytesLE w n
  | .big => (toBytesLE w n).reverse

/-- The number stored in `bs` in the given byte order. -/
def ofBytes (o : ByteOrder) (bs : List Nat) : Nat :=
  match o with
  | .little => ofBytesLE bs
  | .big => ofBytesLE bs.reverse

/-- Object representation of the value `v` in type `t`: the bytes of `v`
reduced modulo `2^bits` (two's complement for a signed type). -/
def encode (p : Platform) (t : CType) (v : Int) : List Nat :=
  toBytes p.byteOrder (p.sizeof t) (v % 2 ^ bits p t).toNat

/-- The value a byte pattern has when read through type `t`: the unsigned
number of the pattern, minus `2^bits` when `t` is signed and the sign bit is
set. -/
def decode (p : Platform) (t : CType) (bs : List Nat) : Int :=
  if t.signed = true ∧ 2 ^ (bits p t - 1) ≤ ofBytes p.byteOrder bs then
    (ofBytes p.byteOrder bs : Int) - 2 ^ bits p t
  else
    (ofBytes p.byteOrder bs : Int)

/-- The most significant bit of a byte pattern is set: bit 7 of the most
significant byte, which is the last byte in little-endian order and the first
in big-endian order. -/
def msbSet (p : Platform) (bs : List Nat) : Bool :=
  match p.byteOrder with
  | .little => decide (128 ≤ bs.getLastD 0)
  | .big => decide (128 ≤ bs.headD 0)

/-! ## Reading and writing members in memory -/

/-- The `len` bytes of `buf` from offset `off`. -/
def readAt (buf : List Nat) (off len : Nat) : List Nat := (buf.drop off).take len

/-- The buffer `buf` with the bytes `bs` stored from offset `off`. -/
def writeAt (buf : List Nat) (off : Nat) (bs : List Nat) : List Nat :=
  buf.take off ++ bs ++ buf.drop (off + bs.length)

/-- Declared type of the `i`-th member. -/
def fieldType (s : StructDecl) (i : Nat) : CType :=
  (s.fields.map Field.type).getD i .uint32_t

/-- Member access for reading: the bytes at the member's offset, read through
the member's declared type. -/
def readField (p : Platform) (s : StructDecl) (buf : List Nat) (i : Nat) : Int :=
  decode p (fieldType s i) (readAt buf (offsetof p s i) (p.sizeof (fieldType s i)))

/-- Member access for writing: the object representation of `v` in the
member's declared type, stored at the member's offset. -/
def writeField (p : Platform) (s : StructDecl) (buf : List Nat) (i : Nat) (v : Int) :
    List Nat :=
  writeAt buf (offsetof p s i) (encode p (fieldType s i) v)

/-- Modelled from the spec: the header defines no function that interprets a
buffer; "interpreting it as `MachHeader64`" is taken as C member access on the
struct declared in the header: every member is read at its `offsetof`, over
`sizeof` of its declared type, through its declared type. -/
def load (p : Platform) (buf : List Nat) : mach_header_64 :=
  { magic := readField p mach_header_64.decl buf 0
    cputype := readField p mach_header_64.decl buf 1
    cpusubtype := readField p mach_header_64.decl buf 2
    filetype := readField p mach_header_64.decl buf 3
    ncmds := readField p mach_header_64.decl buf 4
    sizeofcmds := readField p mach_header_64.decl buf 5
    flags := readField p mach_header_64.decl buf 6
    reserved := readField p mach_header_64.decl buf 7 }

/-- Modelled from the spec: the header defines no function that serialises a
header; "write a buffer with known field values in the documented order" is
taken as a zeroed buffer of `sizeof (struct mach_header_64)` bytes into which
the members are stored one after the other, in declaration order, each at its
`offsetof` in the object representation of its declared type. -/
def store (p : Platform) (h : mach_header_64) : List Nat :=
  let b := List.replicate (sizeofStruct p mach_header_64.decl) 0
  let b := writeField p mach_header_64.decl b 0 h.magic
  let b := writeField p mach_header_64.decl b 1 h.cputype
  let b := writeField p mach_header_64.decl b 2 h.cpusubtype
  let b := writeField p mach_header_64.decl b 3 h.filetype
  let b := writeField p mach_header_64.decl b 4 h.ncmds
  let b := writeField p mach_header_64.decl b 5 h.sizeofcmds
  let b := writeField p mach_header_64.decl b 6 h.flags
  writeField p mach_header_64.decl b 7 h.reserved

/-- Every member of `h` is representable in its declared type. -/
def wellTyped (p : Platform) (h : mach_header_64) : Prop :=
  ∀ fv ∈ List.zip mach_header_64.decl.fields h.values, inRange p fv.1.type fv.2

instance (p : Platform) (h : mach_header_64) : Decidable (wellTyped p h) := by
  unfold wellTyped; infer_instance

/-- A header as found at the start of an x86_64 executable: `MH_MAGIC_64`,
`CPU_TYPE_X86_64`, `CPU_SUBTYPE_X86_64_ALL` with the `CPU_SUBTYPE_LIB64` bit
(negative as an `int`), `MH_EXECUTE`. -/
def sampleHeader : mach_header_64 :=
  { magic := 4277009103
    cputype := 16777223
    cpusubtype := -2147483645
    filetype := 2
    ncmds := 16
    sizeofcmds := 1368
    flags := 2097285
    reserved := 0 }

/-- The 32 bytes of `sampleHeader` in little-endian order. -/
def sampleBytes : List Nat :=
  [207, 250, 237, 254, 7, 0, 0, 1, 3, 0, 0, 128, 2, 0, 0, 0,
   16, 0, 0, 0, 88, 5, 0, 0, 133, 0, 32, 0, 0, 0, 0, 0]

/-! ## The translation unit -/

/-- The program state the header gives access to: the object
`_mh_execute_header`. -/
structure ProgState where
  _mh_execute_header : mach_header_64

/-- A declaration: a struct definition, a function (with the effect of a call
on the state) or the declaration of an external object of struct type. -/
inductive Decl where
  | structDef (s : StructDecl)
  | function (name : String) (body : ProgState → ProgState)
  | objectDecl (structTag : String) (name : String)

/-- A top-level item of the header: a declaration, or a C-linkage block with
the declarations it encloses. -/
inductive Item where
  | decl (d : Decl)
  | linkageBlock (body : List Decl)

/-- The header `zig-date.h`: the struct definition, the (empty) C-linkage
block, and the declaration of `_mh_execute_header`. -/
def zig_date_h : List Item :=
  [ Item.decl (Decl.structDef mach_header_64.decl),
    Item.linkageBlock [],
    Item.decl (Decl.objectDecl ("mach_header_64") ("_mh_execute_header")) ]

/-- The declarations of an item. -/
def Item.decls : Item → List Decl
  | .decl d => [d]
  | .linkageBlock body => body

/-- All declarations of a header, those inside linkage blocks included. -/
def declarations : List Item → List Decl
  | [] => []
  | it :: rest => it.decls ++ declarations rest

/-- The operations a header defines: the effects of its functions. -/
def operations : List Decl → List (ProgState → ProgState)
  | [] => []
  | .function _ body :: rest => body :: operations rest
  | _ :: rest => operations rest

/-- The external objects a header declares, as (struct tag, name). -/
def objects : List Decl → List (String × String)
  | [] => []
  | .objectDecl tag name :: rest => (tag, name) :: objects rest
  | _ :: rest => objects rest

/-- Running a sequence of operations from a state. -/
def runOps : List (ProgState → ProgState) → ProgState → ProgState
  | [], s => s
  | op :: ops, s => runOps ops (op s)

/-! ## Bytes and integers -/

/-- A list of length four is four elements. -/
theorem length_four {l : List Nat} (h : l.length = 4) : ∃ a b c d, l = [a, b, c, d] := by
  match l, h with
  | [a, b, c, d], _ => exact ⟨a, b, c, d, rfl⟩

/-- The byte list of a number has the requested width. -/
theorem toBytes_length (o : ByteOrder) (w n : Nat) : (toBytes o w n).length = w := by
  have h : ∀ w n, (toBytesLE w n).length = w := by
    intro w
    induction w with
    | zero => intro n; rfl
    | succ k ih => intro n; simp [toBytesLE, ih]
  cases o <;> simp [toBytes, h]

/-- The byte list of a number holds bytes only. -/
theorem toBytes_isBytes (o : ByteOrder) (w n : Nat) : IsBytes (toBytes o w n) := by
  have h : ∀ w n, IsBytes (toBytesLE w n) := by
    intro w
    induction w with
    | zero => intro n; simp [toBytesLE, IsBytes]
    | succ k ih =>
      intro n b hb
      simp only [toBytesLE, List.mem_cons] at hb
      rcases hb with rfl | hb
      · exact Nat.mod_lt _ (by norm_num)
      · exact ih _ b hb
  cases o
  · exact h w n
  · intro b hb
    exact h w n b (by simpa [toBytes] using hb)

/-- Four bytes hold every number below `2^32`, in either byte order. -/
theorem ofBytes_toBytes4 (o : ByteOrder) (n : Nat) (hn : n < 4294967296) :
    ofBytes o (toBytes o 4 n) = n := by
  cases o <;> simp [ofBytes, toBytes, toBytesLE, ofBytesLE] <;> omega

/-- Four bytes are the byte list of the number they hold, which is below `2^32`. -/
theorem toBytes_ofBytes4 (o : ByteOrder) (a b c d : Nat)
    (ha : a < 256) (hb : b < 256) (hc : c < 256) (hd : d < 256) :
    toBytes o 4 (ofBytes o [a, b, c, d]) = [a, b, c, d] ∧
      ofBytes o [a, b, c, d] < 4294967296 := by
  cases o <;> simp [ofBytes, toBytes, toBytesLE, ofBytesLE] <;> omega

/-- Reading back the object representation of a representable value gives the value. -/
theorem decode_encode (p : Platform) (t : CType) (hs : p.sizeof t = 4) (v : Int)
    (hv : inRange p t v) : decode p t (encode p t v) = v := by
  obtain ⟨h1, h2⟩ := hv
  simp only [minVal, maxVal, bits, hs] at h1 h2
  have hn : (v % 4294967296).toNat < 4294967296 := by omega
  simp only [decode, encode, bits, hs]
  norm_num
  rw [ofBytes_toBytes4 _ _ hn]
  cases t <;> simp [CType.signed] at h1 h2 ⊢
  · omega
  · split <;> omega

/-- The value read from four bytes is representable and its object representation
is those four bytes. -/
theorem encode_decode (p : Platform) (t : CType) (hs : p.sizeof t = 4) (a b c d : Nat)
    (ha : a < 256) (hb : b < 256) (hc : c < 256) (hd : d < 256) :
    encode p t (decode p t [a, b, c, d]) = [a, b, c, d] ∧
      inRange p t (decode p t [a, b, c, d]) := by
  obtain ⟨h1, h2⟩ := toBytes_ofBytes4 p.byteOrder a b c d ha hb hc hd
  simp only [decode, encode, inRange, minVal, maxVal, bits, hs]
  generalize ofBytes p.byteOrder [a, b, c, d] = u at h1 h2
  norm_num
  cases t <;> simp [CType.signed]
  · refine ⟨?_, ?_⟩
    · have : ((u : Int) % 4294967296).toNat = u := by omega
      rw [this]; exact h1
    · omega
  · split
    · refine ⟨?_, by omega, by omega⟩
      have : (((u : Int) - 4294967296) % 4294967296).toNat = u := by omega
      rw [this]; exact h1
    · refine ⟨?_, by omega, by omega⟩
      have : ((u : Int) % 4294967296).toNat = u := by omega
      rw [this]; exact h1

/-- The layout rule on the eight members under the 4-byte data model. -/
theorem layout_four (p : Platform)
    (hs : ∀ t, p.sizeof t = 4) (ha : ∀ t, p.alignof t = 4) :
    offsets p mach_header_64.decl = [0, 4, 8, 12, 16, 20, 24, 28] ∧
      endFrom p 0 mach_header_64.decl.fields = 32 ∧
      alignofStruct p mach_header_64.decl = 4 := by
  simp [offsets, layoutFrom, endFrom, alignofStruct, mach_header_64.decl, alignUp, hs, ha]

/-- Size and member offsets of the struct under the 4-byte data model. -/
theorem layout_facts (p : Platform)
    (hs : ∀ t, p.sizeof t = 4) (ha : ∀ t, p.alignof t = 4) :
    sizeofStruct p mach_header_64.decl = 32 ∧
      offsetof p mach_header_64.decl 0 = 0 ∧ offsetof p mach_header_64.decl 1 = 4 ∧
      offsetof p mach_header_64.decl 2 = 8 ∧ offsetof p mach_header_64.decl 3 = 12 ∧
      offsetof p mach_header_64.decl 4 = 16 ∧ offsetof p mach_header_64.decl 5 = 20 ∧
      offsetof p mach_header_64.decl 6 = 24 ∧ offsetof p mach_header_64.decl 7 = 28 := by
  obtain ⟨ho, he, hal⟩ := layout_four p hs ha
  simp [sizeofStruct, offsetof, ho, he, hal, alignUp]

/-- Under the 4-byte data model the serialised header is the concatenation of the
object representations of its members. -/
theorem store_chunks (p : Platform)
    (hs : ∀ t, p.sizeof t = 4) (ha : ∀ t, p.alignof t = 4) (h : mach_header_64) :
    store p h =
      encode p .uint32_t h.magic ++ encode p .int h.cputype ++ encode p .int h.cpusubtype ++
        encode p .uint32_t h.filetype ++ encode p .uint32_t h.ncmds ++
        encode p .uint32_t h.sizeofcmds ++ encode p .uint32_t h.flags ++
        encode p .uint32_t h.reserved := by
  obtain ⟨hz, o0, o1, o2, o3, o4, o5, o6, o7⟩ := layout_facts p hs ha
  have len : ∀ t v, (encode p t v).length = 4 := by
    intro t v; simp [encode, toBytes_length, hs]
  obtain ⟨a0, b0, c0, d0, e0⟩ := length_four (len .uint32_t h.magic)
  obtain ⟨a1, b1, c1, d1, e1⟩ := length_four (len .int h.cputype)
  obtain ⟨a2, b2, c2, d2, e2⟩ := length_four (len .int h.cpusubtype)
  obtain ⟨a3, b3, c3, d3, e3⟩ := length_four (len .uint32_t h.filetype)
  obtain ⟨a4, b4, c4, d4, e4⟩ := length_four (len .uint32_t h.ncmds)
  obtain ⟨a5, b5, c5, d5, e5⟩ := length_four (len .uint32_t h.sizeofcmds)
  obtain ⟨a6, b6, c6, d6, e6⟩ := length_four (len .uint32_t h.flags)
  obtain ⟨a7, b7, c7, d7, e7⟩ := length_four (len .uint32_t h.reserved)
  have t0 : fieldType mach_header_64.decl 0 = .uint32_t := rfl
  have t1 : fieldType mach_header_64.decl 1 = .int := rfl
  have t2 : fieldType mach_header_64.decl 2 = .int := rfl
  have t3 : fieldType mach_header_64.decl 3 = .uint32_t := rfl
  have t4 : fieldType mach_header_64.decl 4 = .uint32_t := rfl
  have t5 : fieldType mach_header_64.decl 5 = .uint32_t := rfl
  have t6 : fieldType mach_header_64.decl 6 = .uint32_t := rfl
  have t7 : fieldType mach_header_64.decl 7 = .uint32_t := rfl
  simp only [store, writeField, hz, o0, o1, o2, o3, o4, o5, o6, o7,
    t0, t1, t2, t3, t4, t5, t6, t7, e0, e1, e2, e3, e4, e5, e6, e7]
  simp [writeAt]

/-- Under the 4-byte data model interpreting eight 4-byte chunks reads each chunk
through the type of the member it belongs to. -/
theorem load_chunks (p : Platform)
    (hs : ∀ t, p.sizeof t = 4) (ha : ∀ t, p.alignof t = 4)
    (k0 k1 k2 k3 k4 k5 k6 k7 : List Nat)
    (h0 : k0.length = 4) (h1 : k1.length = 4) (h2 : k2.length = 4) (h3 : k3.length = 4)
    (h4 : k4.length = 4) (h5 : k5.length = 4) (h6 : k6.length = 4) (h7 : k7.length = 4) :
    load p (k0 ++ k1 ++ k2 ++ k3 ++ k4 ++ k5 ++ k6 ++ k7) =
      { magic := decode p .uint32_t k0
        cputype := decode p .int k1
        cpusubtype := decode p .int k2
        filetype := decode p .uint32_t k3
        ncmds := decode p .uint32_t k4
        sizeofcmds := decode p .uint32_t k5
        flags := decode p .uint32_t k6
        reserved := decode p .uint32_t k7 } := by
  obtain ⟨-, o0, o1, o2, o3, o4, o5, o6, o7⟩ := layout_facts p hs ha
  obtain ⟨a0, b0, c0, d0, rfl⟩ := length_four h0
  obtain ⟨a1, b1, c1, d1, rfl⟩ := length_four h1
  obtain ⟨a2, b2, c2, d2, rfl⟩ := length_four h2
  obtain ⟨a3, b3, c3, d3, rfl⟩ := length_four h3
  obtain ⟨a4, b4, c4, d4, rfl⟩ := length_four h4
  obtain ⟨a5, b5, c5, d5, rfl⟩ := length_four h5
  obtain ⟨a6, b6, c6, d6, rfl⟩ := length_four h6
  obtain ⟨a7, b7, c7, d7, rfl⟩ := length_four h7
  simp only [load, readField, o0, o1, o2, o3, o4, o5, o6, o7, hs]
  rfl

/-- Offset and size of the `i`-th member under the 4-byte data model. -/
theorem offsetof_four (p : Platform)
    (hs : ∀ t, p.sizeof t = 4) (ha : ∀ t, p.alignof t = 4) (i : Nat) (hi : i < 8) :
    offsetof p mach_header_64.decl i = 4 * i ∧ fieldSize p mach_header_64.decl i = 4 := by
  obtain ⟨ho, -, -⟩ := layout_four p hs ha
  constructor
  · interval_cases i <;> simp [offsetof, ho]
  · interval_cases i <;> simp [fieldSize, mach_header_64.decl, hs]

/-- A list of length 32 is eight chunks of length four. -/
theorem chunks_of_length_32 {l : List Nat} (h : l.length = 32) :
    ∃ k0 k1 k2 k3 k4 k5 k6 k7 : List Nat,
      k0.length = 4 ∧ k1.length = 4 ∧ k2.length = 4 ∧ k3.length = 4 ∧
      k4.length = 4 ∧ k5.length = 4 ∧ k6.length = 4 ∧ k7.length = 4 ∧
      l = k0 ++ k1 ++ k2 ++ k3 ++ k4 ++ k5 ++ k6 ++ k7 := by
  refine ⟨l.take 4, (l.drop 4).take 4, (l.drop 8).take 4, (l.drop 12).take 4,
    (l.drop 16).take 4, (l.drop 20).take 4, (l.drop 24).take 4, l.drop 28, ?_⟩
  refine ⟨?_, ?_, ?_, ?_, ?_, ?_, ?_, ?_, ?_⟩
  any_goals (simp only [List.length_take, List.length_drop]; omega)
  have step : ∀ (m : List Nat) (n : Nat), m.drop n = (m.drop n).take 4 ++ m.drop (n + 4) := by
    intro m n
    rw [← List.drop_drop, List.take_append_drop]
  have e0 : l = l.take 4 ++ l.drop 4 := (List.take_append_drop 4 l).symm
  conv_lhs => rw [e0, step l 4, step l 8, step l 12, step l 16, step l 20, step l 24]
  simp only [List.append_assoc]

/-- A concatenation holds bytes only when both parts do. -/
theorem isBytes_append {k l : List Nat} : IsBytes (k ++ l) ↔ IsBytes k ∧ IsBytes l := by
  simp only [IsBytes, List.mem_append]
  constructor
  · intro h
    exact ⟨fun b hb => h b (Or.inl hb), fun b hb => h b (Or.inr hb)⟩
  · rintro ⟨h1, h2⟩ b (hb | hb)
    · exact h1 b hb
    · exact h2 b hb

/-- An object representation is four bytes long under the 4-byte data model. -/
theorem encode_length (p : Platform) (hs : ∀ t, p.sizeof t = 4) (t : CType) (v : Int) :
    (encode p t v).length = 4 := by
  simp [encode, toBytes_length, hs]

/-- The list form of `encode_decode`. -/
theorem encode_decode_list (p : Platform) (hs : ∀ t, p.sizeof t = 4) (t : CType)
    (k : List Nat) (hl : k.length = 4) (hb : IsBytes k) :
    encode p t (decode p t k) = k ∧ inRange p t (decode p t k) := by
  obtain ⟨a, b, c, d, rfl⟩ := length_four hl
  exact encode_decode p t (hs t) a b c d (hb a (by simp)) (hb b (by simp))
    (hb c (by simp)) (hb d (by simp))

/-! ## Size and layout of `struct mach_header_64` -/

/-- C1: with `uint32_t` and `int` both 4 bytes wide and 4-byte aligned, the size
of `struct mach_header_64` computed by the C layout rule is exactly 32 bytes. -/
theorem sizeof_mach_header_64 (p : Platform)
    (hs : ∀ t, p.sizeof t = 4) (ha : ∀ t, p.alignof t = 4) :
    sizeofStruct p mach_header_64.decl = 32 :=
  (layout_facts p hs ha).1

theorem sizeof_mach_header_64_witness :
    (∀ t, darwin64.sizeof t = 4) ∧ (∀ t, darwin64.alignof t = 4) ∧
      sizeofStruct darwin64 mach_header_64.decl = 32 :=
  ⟨fun _ => rfl, fun _ => rfl, sizeof_mach_header_64 darwin64 (fun _ => rfl) (fun _ => rfl)⟩

/-- C2: the struct has exactly eight members, declared in the order magic,
cputype, cpusubtype, filetype, ncmds, sizeofcmds, flags, reserved; with 4-byte
members the `i`-th one sits at offset `4 * i`; each member ends where the next
one starts, two members never overlap, the last member ends at `sizeof`, and
the struct has no padding byte. -/
theorem mach_header_64_layout (p : Platform)
    (hs : ∀ t, p.sizeof t = 4) (ha : ∀ t, p.alignof t = 4) :
    mach_header_64.decl.fields.length = 8 ∧
      mach_header_64.decl.fields.map Field.name =
        ["magic", "cputype", "cpusubtype", "filetype", "ncmds", "sizeofcmds", "flags",
          "reserved"] ∧
      offsets p mach_header_64.decl = [0, 4, 8, 12, 16, 20, 24, 28] ∧
      (∀ i, i < 8 → offsetof p mach_header_64.decl i = 4 * i) ∧
      (∀ i, i < 8 → fieldSize p mach_header_64.decl i = 4) ∧
      (∀ i, i + 1 < 8 →
        offsetof p mach_header_64.decl i + fieldSize p mach_header_64.decl i =
          offsetof p mach_header_64.decl (i + 1)) ∧
      (∀ i j, i < j → j < 8 →
        offsetof p mach_header_64.decl i + fieldSize p mach_header_64.decl i ≤
          offsetof p mach_header_64.decl j) ∧
      offsetof p mach_header_64.decl 7 + fieldSize p mach_header_64.decl 7 =
        sizeofStruct p mach_header_64.decl ∧
      paddingBytes p mach_header_64.decl = 0 := by
  obtain ⟨ho, -, -⟩ := layout_four p hs ha
  obtain ⟨hz, -⟩ := layout_facts p hs ha
  have hoff : ∀ i, i < 8 → offsetof p mach_header_64.decl i = 4 * i := by
    intro i hi
    interval_cases i <;> simp [offsetof, ho]
  have hsize : ∀ i, i < 8 → fieldSize p mach_header_64.decl i = 4 := by
    intro i hi
    interval_cases i <;> simp [fieldSize, mach_header_64.decl, hs]
  refine ⟨rfl, rfl, ho, hoff, hsize, ?_, ?_, ?_, ?_⟩
  · intro i hi
    rw [hoff i (by omega), hoff (i + 1) hi, hsize i (by omega)]
    omega
  · intro i j hij hj
    rw [hoff i (by omega), hoff j hj, hsize i (by omega)]
    omega
  · rw [hoff 7 (by omega), hsize 7 (by omega), hz]
  · rw [paddingBytes, hz]
    simp [mach_header_64.decl, hs]

theorem mach_header_64_layout_witness :
    (∀ t, darwin64.sizeof t = 4) ∧ (∀ t, darwin64.alignof t = 4) ∧
      offsets darwin64 mach_header_64.decl = [0, 4, 8, 12, 16, 20, 24, 28] ∧
      paddingBytes darwin64 mach_header_64.decl = 0 :=
  ⟨fun _ => rfl, fun _ => rfl,
    (mach_header_64_layout darwin64 (fun _ => rfl) (fun _ => rfl)).2.2.1,
    (mach_header_64_layout darwin64 (fun _ => rfl) (fun _ => rfl)).2.2.2.2.2.2.2.2⟩

/-- C3: on a platform whose `uint32_t` and `int` are 4 bytes wide, cputype and
cpusubtype are signed 32-bit members with range `-2^31 .. 2^31 - 1`, and magic,
filetype, ncmds, sizeofcmds, flags and reserved are unsigned 32-bit members
with range `0 .. 2^32 - 1`; the range of a member is exactly the set of values
that reading four bytes through it can give. -/
theorem mach_header_64_field_types (p : Platform) (hs : ∀ t, p.sizeof t = 4) :
    mach_header_64.decl.fields.map
        (fun f => (f.name, f.type.signed, bits p f.type, minVal p f.type, maxVal p f.type)) =
      [ ("magic", false, 32, 0, 2 ^ 32 - 1),
        ("cputype", true, 32, -2 ^ 31, 2 ^ 31 - 1),
        ("cpusubtype", true, 32, -2 ^ 31, 2 ^ 31 - 1),
        ("filetype", false, 32, 0, 2 ^ 32 - 1),
        ("ncmds", false, 32, 0, 2 ^ 32 - 1),
        ("sizeofcmds", false, 32, 0, 2 ^ 32 - 1),
        ("flags", false, 32, 0, 2 ^ 32 - 1),
        ("reserved", false, 32, 0, 2 ^ 32 - 1) ] ∧
      ∀ f ∈ mach_header_64.decl.fields, ∀ v : Int,
        inRange p f.type v ↔
          ∃ bs : List Nat, bs.length = 4 ∧ IsBytes bs ∧ decode p f.type bs = v := by
  constructor
  · simp [mach_header_64.decl, CType.signed, bits, minVal, maxVal, hs]
  · intro f _ v
    constructor
    · intro hv
      refine ⟨encode p f.type v, ?_, toBytes_isBytes _ _ _, decode_encode p f.type (hs _) v hv⟩
      simp [encode, toBytes_length, hs]
    · rintro ⟨bs, hl, hb, rfl⟩
      obtain ⟨a, b, c, d, rfl⟩ := length_four hl
      exact (encode_decode p f.type (hs _) a b c d (hb a (by simp)) (hb b (by simp))
        (hb c (by simp)) (hb d (by simp))).2

theorem mach_header_64_field_types_witness :
    (∀ t, darwin64.sizeof t = 4) ∧
      (minVal darwin64 .int = -2 ^ 31 ∧ maxVal darwin64 .uint32_t = 2 ^ 32 - 1) := by
  refine ⟨fun _ => rfl, ?_⟩
  have h := (mach_header_64_field_types darwin64 (fun _ => rfl)).1
  simp [mach_header_64.decl] at h
  exact ⟨h.2.1.2.2.1, h.1.2.2.2⟩

/-- C7: the seven members before `reserved` occupy 28 bytes, which is not a
multiple of 8; with `reserved`, which sits at offset 28, the struct occupies 32
bytes, a multiple of 8; so what directly follows a header placed at an
8-byte-aligned address is 8-byte aligned, and without `reserved` it would not
be. -/
theorem reserved_makes_size_aligned (p : Platform)
    (hs : ∀ t, p.sizeof t = 4) (ha : ∀ t, p.alignof t = 4) :
    mach_header_64.decl.fields.drop 7 = [⟨.uint32_t, "reserved"⟩] ∧
      offsetof p mach_header_64.decl 7 = 28 ∧
      sizeofStruct p (mach_header_64.decl.truncate 7) = 28 ∧
      ¬ 8 ∣ sizeofStruct p (mach_header_64.decl.truncate 7) ∧
      sizeofStruct p mach_header_64.decl = 32 ∧
      8 ∣ sizeofStruct p mach_header_64.decl ∧
      (∀ addr, 8 ∣ addr → 8 ∣ addr + sizeofStruct p mach_header_64.decl) ∧
      (∀ addr, 8 ∣ addr → ¬ 8 ∣ addr + sizeofStruct p (mach_header_64.decl.truncate 7)) := by
  obtain ⟨hz, -, -, -, -, -, -, -, o7⟩ := layout_facts p hs ha
  have h7 : sizeofStruct p (mach_header_64.decl.truncate 7) = 28 := by
    simp [sizeofStruct, StructDecl.truncate, mach_header_64.decl, endFrom, alignofStruct,
      alignUp, hs, ha]
  rw [h7, hz]
  refine ⟨rfl, o7, rfl, by omega, rfl, by omega, ?_, ?_⟩
  · intro addr h; omega
  · intro addr h; omega

theorem reserved_makes_size_aligned_witness :
    (∀ t, darwin64.sizeof t = 4) ∧ (∀ t, darwin64.alignof t = 4) ∧
      sizeofStruct darwin64 (mach_header_64.decl.truncate 7) = 28 ∧
      (8 ∣ 4096 → 8 ∣ 4096 + sizeofStruct darwin64 mach_header_64.decl) :=
  ⟨fun _ => rfl, fun _ => rfl,
    (reserved_makes_size_aligned darwin64 (fun _ => rfl) (fun _ => rfl)).2.2.1,
    (reserved_makes_size_aligned darwin64 (fun _ => rfl) (fun _ => rfl)).2.2.2.2.2.2.1 4096⟩

/-! ## Serialising and interpreting -/

/-- C4: for every choice of the eight member values within their ranges,
serialising them (4 bytes per member at offsets 0, 4, ..., 28, in the
platform's byte order) gives 32 bytes, and interpreting those bytes as a
`struct mach_header_64` gives back the values written. -/
theorem load_store (p : Platform)
    (hs : ∀ t, p.sizeof t = 4) (ha : ∀ t, p.alignof t = 4)
    (h : mach_header_64) (hw : wellTyped p h) :
    (store p h).length = 32 ∧ IsBytes (store p h) ∧
      (∀ i, i < 8 →
        readAt (store p h) (4 * i) 4 =
          encode p (fieldType mach_header_64.decl i) (h.values.getD i 0)) ∧
      load p (store p h) = h := by
  have len := encode_length p hs
  have hst := store_chunks p hs ha h
  have hld := load_chunks p hs ha _ _ _ _ _ _ _ _
    (len .uint32_t h.magic) (len .int h.cputype) (len .int h.cpusubtype)
    (len .uint32_t h.filetype) (len .uint32_t h.ncmds) (len .uint32_t h.sizeofcmds)
    (len .uint32_t h.flags) (len .uint32_t h.reserved)
  rw [← hst] at hld
  refine ⟨?_, ?_, ?_, ?_⟩
  · rw [hst]; simp [len]
  · rw [hst]
    simp only [isBytes_append]
    simp only [encode, toBytes_isBytes, and_self]
  · intro i hi
    rw [hst]
    obtain ⟨a0, b0, c0, d0, e0⟩ := length_four (len .uint32_t h.magic)
    obtain ⟨a1, b1, c1, d1, e1⟩ := length_four (len .int h.cputype)
    obtain ⟨a2, b2, c2, d2, e2⟩ := length_four (len .int h.cpusubtype)
    obtain ⟨a3, b3, c3, d3, e3⟩ := length_four (len .uint32_t h.filetype)
    obtain ⟨a4, b4, c4, d4, e4⟩ := length_four (len .uint32_t h.ncmds)
    obtain ⟨a5, b5, c5, d5, e5⟩ := length_four (len .uint32_t h.sizeofcmds)
    obtain ⟨a6, b6, c6, d6, e6⟩ := length_four (len .uint32_t h.flags)
    obtain ⟨a7, b7, c7, d7, e7⟩ := length_four (len .uint32_t h.reserved)
    interval_cases i
    · show _ = encode p .uint32_t h.magic
      rw [e0, e1, e2, e3, e4, e5, e6, e7]; rfl
    · show _ = encode p .int h.cputype
      rw [e0, e1, e2, e3, e4, e5, e6, e7]; rfl
    · show _ = encode p .int h.cpusubtype
      rw [e0, e1, e2, e3, e4, e5, e6, e7]; rfl
    · show _ = encode p .uint32_t h.filetype
      rw [e0, e1, e2, e3, e4, e5, e6, e7]; rfl
    · show _ = encode p .uint32_t h.ncmds
      rw [e0, e1, e2, e3, e4, e5, e6, e7]; rfl
    · show _ = encode p .uint32_t h.sizeofcmds
      rw [e0, e1, e2, e3, e4, e5, e6, e7]; rfl
    · show _ = encode p .uint32_t h.flags
      rw [e0, e1, e2, e3, e4, e5, e6, e7]; rfl
    · show _ = encode p .uint32_t h.reserved
      rw [e0, e1, e2, e3, e4, e5, e6, e7]; rfl
  · rw [hld]
    simp only [wellTyped, mach_header_64.decl, mach_header_64.values, List.zip_cons_cons,
      List.zip_nil_right, List.mem_cons, List.mem_nil_iff, or_false, forall_eq_or_imp,
      forall_eq] at hw
    obtain ⟨w0, w1, w2, w3, w4, w5, w6, w7⟩ := hw
    rw [decode_encode p _ (hs _) _ w0, decode_encode p _ (hs _) _ w1,
      decode_encode p _ (hs _) _ w2, decode_encode p _ (hs _) _ w3,
      decode_encode p _ (hs _) _ w4, decode_encode p _ (hs _) _ w5,
      decode_encode p _ (hs _) _ w6, decode_encode p _ (hs _) _ w7]

theorem load_store_witness :
    wellTyped darwin64 sampleHeader ∧ store darwin64 sampleHeader = sampleBytes ∧
      load darwin64 (store darwin64 sampleHeader) = sampleHeader := by
  have hw : wellTyped darwin64 sampleHeader := by decide
  refine ⟨hw, by decide, ?_⟩
  exact (load_store darwin64 (fun _ => rfl) (fun _ => rfl) sampleHeader hw).2.2.2

/-- C5: for every buffer of 32 bytes, interpreting it as a
`struct mach_header_64` gives a record whose members are all within their
ranges, serialising that record gives back the same 32 bytes, and every byte
position of the buffer lies in exactly one member. -/
theorem store_load (p : Platform)
    (hs : ∀ t, p.sizeof t = 4) (ha : ∀ t, p.alignof t = 4)
    (buf : List Nat) (hl : buf.length = 32) (hb : IsBytes buf) :
    store p (load p buf) = buf ∧ wellTyped p (load p buf) ∧
      ∀ k, k < 32 →
        ∃! i, i < 8 ∧ offsetof p mach_header_64.decl i ≤ k ∧
          k < offsetof p mach_header_64.decl i + fieldSize p mach_header_64.decl i := by
  obtain ⟨k0, k1, k2, k3, k4, k5, k6, k7, l0, l1, l2, l3, l4, l5, l6, l7, rfl⟩ :=
    chunks_of_length_32 hl
  simp only [isBytes_append] at hb
  obtain ⟨⟨⟨⟨⟨⟨⟨y0, y1⟩, y2⟩, y3⟩, y4⟩, y5⟩, y6⟩, y7⟩ := hb
  have r0 := encode_decode_list p hs .uint32_t k0 l0 y0
  have r1 := encode_decode_list p hs .int k1 l1 y1
  have r2 := encode_decode_list p hs .int k2 l2 y2
  have r3 := encode_decode_list p hs .uint32_t k3 l3 y3
  have r4 := encode_decode_list p hs .uint32_t k4 l4 y4
  have r5 := encode_decode_list p hs .uint32_t k5 l5 y5
  have r6 := encode_decode_list p hs .uint32_t k6 l6 y6
  have r7 := encode_decode_list p hs .uint32_t k7 l7 y7
  rw [load_chunks p hs ha k0 k1 k2 k3 k4 k5 k6 k7 l0 l1 l2 l3 l4 l5 l6 l7]
  refine ⟨?_, ?_, ?_⟩
  · rw [store_chunks p hs ha]
    simp only [r0.1, r1.1, r2.1, r3.1, r4.1, r5.1, r6.1, r7.1]
  · simp only [wellTyped, mach_header_64.decl, mach_header_64.values, List.zip_cons_cons,
      List.zip_nil_right, List.mem_cons, List.mem_nil_iff, or_false, forall_eq_or_imp,
      forall_eq]
    exact ⟨r0.2, r1.2, r2.2, r3.2, r4.2, r5.2, r6.2, r7.2⟩
  · intro k hk
    refine ⟨k / 4, ?_, ?_⟩
    · have hi : k / 4 < 8 := by omega
      obtain ⟨ho, hz⟩ := offsetof_four p hs ha (k / 4) hi
      simp only [ho, hz]
      omega
    · rintro j ⟨hj, h1, h2⟩
      obtain ⟨ho, hz⟩ := offsetof_four p hs ha j hj
      rw [ho] at h1
      rw [ho, hz] at h2
      omega

theorem store_load_witness :
    sampleBytes.length = 32 ∧ IsBytes sampleBytes ∧
      load darwin64 sampleBytes = sampleHeader ∧
      store darwin64 (load darwin64 sampleBytes) = sampleBytes := by
  have hb : IsBytes sampleBytes := by decide
  refine ⟨rfl, hb, by decide, ?_⟩
  exact (store_load darwin64 (fun _ => rfl) (fun _ => rfl) sampleBytes rfl hb).1

/-! ## Signed and unsigned reading -/

/-- C8: for every pattern of four bytes, when its most significant bit is set,
reading it through a signed member (cputype, cpusubtype) gives a negative value
`v` and reading it through an unsigned member (magic, filetype, ncmds,
sizeofcmds, flags, reserved) gives `v + 2^32`; when the bit is clear the two
readings are equal. -/
theorem signed_unsigned_reading (p : Platform) (hs : ∀ t, p.sizeof t = 4)
    (bs : List Nat) (hl : bs.length = 4) (hb : IsBytes bs)
    (fs fu : Field) (hfs : fs ∈ mach_header_64.decl.fields)
    (hfu : fu ∈ mach_header_64.decl.fields)
    (hns : fs.name ∈ ["cputype", "cpusubtype"])
    (hnu : fu.name ∈ ["magic", "filetype", "ncmds", "sizeofcmds", "flags", "reserved"]) :
    (msbSet p bs = true →
        decode p fs.type bs < 0 ∧ decode p fu.type bs = decode p fs.type bs + 2 ^ 32) ∧
      (msbSet p bs = false → decode p fu.type bs = decode p fs.type bs) := by
  have hts : fs.type = .int := by
    simp only [mach_header_64.decl, List.mem_cons, List.mem_nil_iff, or_false] at hfs
    rcases hfs with rfl | rfl | rfl | rfl | rfl | rfl | rfl | rfl <;> first | rfl | simp at hns
  have htu : fu.type = .uint32_t := by
    simp only [mach_header_64.decl, List.mem_cons, List.mem_nil_iff, or_false] at hfu
    rcases hfu with rfl | rfl | rfl | rfl | rfl | rfl | rfl | rfl <;> first | rfl | simp at hnu
  obtain ⟨a, b, c, d, rfl⟩ := length_four hl
  have ha := hb a (by simp)
  have hb2 := hb b (by simp)
  have hc := hb c (by simp)
  have hd := hb d (by simp)
  rw [hts, htu]
  simp only [decode, msbSet, bits, hs, CType.signed]
  cases p.byteOrder <;>
    simp [ofBytes, ofBytesLE] <;>
    constructor <;> intro h <;> (try rw [if_pos (by omega)]) <;>
      (try rw [if_neg (by omega)]) <;> omega

theorem signed_unsigned_reading_witness :
    decode darwin64 .int [3, 0, 0, 128] = -2147483645 ∧
      decode darwin64 .uint32_t [3, 0, 0, 128] = -2147483645 + 2 ^ 32 := by
  have h := (signed_unsigned_reading darwin64 (fun _ => rfl) [3, 0, 0, 128] rfl (by decide)
    ⟨.int, "cpusubtype"⟩ ⟨.uint32_t, "magic"⟩ (by decide) (by decide) (by decide)
    (by decide)).1 (by decide)
  have hv : decode darwin64 .int [3, 0, 0, 128] = -2147483645 := by decide
  exact ⟨hv, by rw [← hv]; exact h.2⟩

/-! ## The object `_mh_execute_header` -/

/-- C6: the header declares `_mh_execute_header` as an external object of type
`struct mach_header_64`, its C-linkage block is empty and it declares no
function; so every run of operations the header defines leaves the eight
members of `_mh_execute_header` unchanged. -/
theorem mh_execute_header_unchanged :
    objects (declarations zig_date_h) = [(mach_header_64.decl.tag, "_mh_execute_header")] ∧
      zig_date_h.get? 1 = some (Item.linkageBlock []) ∧
      (operations (declarations zig_date_h)).length = 0 ∧
      ∀ (ops : List (ProgState → ProgState)) (s : ProgState),
        (∀ op ∈ ops, op ∈ operations (declarations zig_date_h)) →
          (runOps ops s)._mh_execute_header = s._mh_execute_header := by
  refine ⟨rfl, rfl, rfl, ?_⟩
  intro ops s hops
  cases ops with
  | nil => rfl
  | cons op rest =>
    have h := hops op (List.mem_cons_self _ _)
    simp [operations, declarations, zig_date_h, Item.decls] at h

theorem mh_execute_header_unchanged_witness :
    (∀ op ∈ ([] : List (ProgState → ProgState)), op ∈ operations (declarations zig_date_h)) ∧
      (runOps [] ⟨sampleHeader⟩)._mh_execute_header = sampleHeader :=
  ⟨fun _ h => absurd h (List.not_mem_nil _),
    mh_execute_header_unchanged.2.2.2 [] ⟨sampleHeader⟩
      (fun _ h => absurd h (List.not_mem_nil _))⟩

end ZigDate
